import Mathlib

/-!
Verification of the rate-limited Codeforces API client.

The development shallowly embeds the two relevant layers of the repository:

* `src/client.rs`, module `rate_limit`: a delayed-permit rate limiter built on
  a bounded FIFO channel (`flume::bounded(count)`) pre-filled with `count` unit
  tokens.  `Ratelimit::borrow` awaits `recv_async().unwrap()` and wraps the
  token in a `RatelimitGuard`; dropping the guard spawns a task that sleeps
  `wait_time` and then sends one token back into the channel.

  The embedding is a timed transition system `step : Act → St → StepRes`.
  Tokens carry an identity and the time of their most recent grant, so that
  the windowed capacity bound can be stated and proved.  Time is a natural
  number of abstract clock units; the channel is the FIFO queue `avail`,
  suspended receivers are the FIFO queue `waiting`, and each spawned
  sleep-then-send task is an entry of `pending` carrying its fire time
  (drop time + window, exactly as `tokio::time::sleep(wait_time)` schedules
  it).  `senders` counts live `Sender` clones (the limiter's own plus one
  per spawned task); `recv_async().unwrap()` panics precisely when the
  channel is empty and disconnected, which the `grant` action mirrors.

* `src/lib.rs`: the API methods (`User::info`, `User::rating`, `User::status`,
  `User::rated_list`, `Contest::list`, `Contest::standings`).  In the source
  these take a `reqwest::blocking::Client` directly and build a request with
  `get`/`query`/`send`/`json`.  Each method is embedded as the list of
  effects it performs, plus a pure request-builder embedding used for the
  query-parameter claims.
-/

namespace CFRate

/-- A permit token of the bounded channel.  `id` identifies the token among
the `capacity` tokens created by `Ratelimit::new`; `last` records the time of
the most recent grant of this token (`none` if it was never granted). -/
structure Token where
  id : Nat
  last : Option Nat
deriving DecidableEq, Repr

/-- One entry of the grant log: at time `gtime`, caller `gcaller` received
token `gtok` from `Ratelimit::borrow`. -/
structure GEntry where
  gtime : Nat
  gcaller : Nat
  gtok : Nat
deriving DecidableEq, Repr

/-- The state of one `Ratelimit<T>` value together with the tasks its guards
have spawned.  `cap` and `win` are the `count` and `wait_time` arguments of
`Ratelimit::new`; `avail` is the FIFO message queue of the flume channel;
`waiting` is the FIFO queue of suspended `recv_async` callers; `held` maps a
caller to the token inside its live `RatelimitGuard`; `pending` holds one
entry `(fireTime, token)` per spawned sleep-then-send task; `senders` counts
live `Sender` handles; `grants` is the (newest-first) log of grants and
`refills` counts completed sleep-then-send tasks. -/
structure St where
  cap : Nat
  win : Nat
  time : Nat
  avail : List Token
  waiting : List Nat
  held : List (Nat × Token)
  pending : List (Nat × Token)
  senders : Nat
  grants : List GEntry
  refills : Nat
deriving DecidableEq, Repr

/-- Actions of the embedded system: time passing, a caller entering
`borrow` (joining the receiver queue), the head waiter being handed a token,
a guard being dropped, a spawned sleep-then-send task completing, and a
suspended `borrow` future being dropped (cancellation). -/
inductive Act where
  | tick (d : Nat)
  | acquire (c : Nat)
  | grant
  | release (c : Nat)
  | refill
  | cancel (c : Nat)
deriving DecidableEq, Repr

/-- Result of a step: a successor state, a blocked (suspending or disabled)
action, or a panic (the `unwrap` in `Ratelimit::borrow` observing a
disconnected, empty channel). -/
inductive StepRes where
  | ok (s : St)
  | blocked
  | crash
deriving DecidableEq, Repr

/-- Find the guard of caller `c` and return its token together with the
remaining guard list. -/
def findHeld (c : Nat) : List (Nat × Token) → Option (Token × List (Nat × Token))
  | [] => none
  | e :: rest =>
    if e.1 = c then some (e.2, rest)
    else
      match findHeld c rest with
      | some (tok, rest2) => some (tok, e :: rest2)
      | none => none

/-- One transition of the embedded limiter, following `src/client.rs`:

* `tick d`: the clock advances.
* `acquire c`: caller `c` enters `borrow` and joins the FIFO receiver queue.
* `grant`: the longest-waiting caller receives the oldest queued token
  (`recv_async` resolving); with an empty queue it panics iff no sender is
  alive (the `unwrap`), otherwise it stays suspended.
* `release c`: caller `c` drops its guard; the `Drop` impl clones the sender
  and spawns a task that will re-send the token at `time + win`.
* `refill`: the oldest spawned task, once its sleep has elapsed, sends its
  token back (the bounded channel must have room) and its sender clone dies.
* `cancel c`: a suspended `borrow` future is dropped; the caller leaves the
  receiver queue and nothing else changes. -/
def step (a : Act) (s : St) : StepRes :=
  match a with
  | .tick d => .ok { s with time := s.time + d }
  | .acquire c => .ok { s with waiting := s.waiting ++ [c] }
  | .grant =>
    match s.waiting, s.avail with
    | c :: ws, tok :: toks =>
        .ok { s with
          waiting := ws
          avail := toks
          held := (c, { tok with last := some s.time }) :: s.held
          grants := ⟨s.time, c, tok.id⟩ :: s.grants }
    | _ :: _, [] => if s.senders = 0 then .crash else .blocked
    | [], _ => .blocked
  | .release c =>
    match findHeld c s.held with
    | some (tok, rest) =>
        .ok { s with
          held := rest
          pending := s.pending ++ [(s.time + s.win, tok)]
          senders := s.senders + 1 }
    | none => .blocked
  | .refill =>
    match s.pending with
    | (f, tok) :: rest =>
      if f ≤ s.time ∧ s.avail.length < s.cap then
        .ok { s with
          pending := rest
          avail := s.avail ++ [tok]
          senders := s.senders - 1
          refills := s.refills + 1 }
      else .blocked
    | [] => .blocked
  | .cancel c =>
    if c ∈ s.waiting then .ok { s with waiting := s.waiting.erase c }
    else .blocked

/-- `Ratelimit::new(inner, count, wait_time)`: create the bounded channel of
size `K` and fill it with `K` unit tokens.  No validation is performed on
either argument. -/
def init (K W : Nat) : St :=
  { cap := K
    win := W
    time := 0
    avail := (List.range K).map (fun i => ⟨i, none⟩)
    waiting := []
    held := []
    pending := []
    senders := 1
    grants := []
    refills := 0 }

/-- Run a list of actions from a state, propagating blocked and crash. -/
def run : List Act → St → StepRes
  | [], s => .ok s
  | a :: rest, s =>
    match step a s with
    | .ok s2 => run rest s2
    | r => r

/-- Whether a step result is the panic outcome. -/
def isCrash : StepRes → Bool
  | .crash => true
  | _ => false

/-- Whether a step result is a successor state. -/
def isOk : StepRes → Bool
  | .ok _ => true
  | _ => false

/-- All tokens currently existing in the system, wherever they live. -/
def allToks (s : St) : List Token :=
  s.avail ++ s.held.map Prod.snd ++ s.pending.map Prod.snd

/-- The multiset of token identities in the system. -/
def idMS (s : St) : Multiset Nat :=
  ((allToks s).map Token.id : List Nat)

/-- Number of grants whose time lies in the half-open window
`[t, t + win)`. -/
def windowCount (t win : Nat) (l : List GEntry) : Nat :=
  (l.filter (fun e => decide (t ≤ e.gtime) && decide (e.gtime < t + win))).length

end CFRate

namespace CFApi

/-- Effects performed by an API method of `src/lib.rs`, in order. -/
inductive Effect where
  | acquireGuard
  | httpGet (url : String)
  | queryParam (key val : String)
  | send
  | parseJson
deriving DecidableEq, Repr

/-- Effects of `User::info` (`src/lib.rs`): build a GET request on the plain
blocking client, attach the joined handles, send, parse. -/
def userInfoEffects (handles : List String) : List Effect :=
  [.httpGet "https://codeforces.com/api/user.info",
   .queryParam "handles" (String.intercalate ";" handles),
   .send, .parseJson]

/-- Effects of `User::rated_list` (`src/lib.rs`). -/
def userRatedListEffects (activeOnly : Bool) : List Effect :=
  [.httpGet "https://codeforces.com/api/user.ratedList",
   .queryParam "activeOnly" (toString activeOnly),
   .send, .parseJson]

/-- Effects of `User::rating` (`src/lib.rs`). -/
def userRatingEffects (handle : String) : List Effect :=
  [.httpGet "https://codeforces.com/api/user.rating",
   .queryParam "handle" handle,
   .send, .parseJson]

/-- Effects of `User::status` (`src/lib.rs`): the numeric parameters are sent
as `from.max(1)` and `count.min(1)`. -/
def userStatusEffects (handle : String) (fr cnt : Nat) : List Effect :=
  [.httpGet "https://codeforces.com/api/user.status",
   .queryParam "handle" handle,
   .queryParam "from" (toString (max fr 1)),
   .queryParam "count" (toString (min cnt 1)),
   .send, .parseJson]

/-- Effects of `Contest::list` (`src/lib.rs`). -/
def contestListEffects (withGym : Bool) : List Effect :=
  [.httpGet "https://codeforces.com/api/contest.list",
   .queryParam "gym" (toString withGym),
   .send, .parseJson]

/-- Effects of `Contest::standings` (`src/lib.rs`): the contest id followed
by the query pairs produced from the `ContestRankingsBuilder`. -/
def contestStandingsEffects (contestId : Nat) (builderPairs : List (String × String)) :
    List Effect :=
  [.httpGet "https://codeforces.com/api/contest.standings",
   .queryParam "contestId" (toString contestId)]
  ++ builderPairs.map (fun p => .queryParam p.1 p.2)
  ++ [.send, .parseJson]

/-- Number of limiter acquisitions in an effect list. -/
def acquireTotal (l : List Effect) : Nat :=
  (l.filter (fun e => e == .acquireGuard)).length

/-- Helper: every `send` is preceded (anywhere earlier) by an
`acquireGuard`; the flag records whether one has been seen. -/
def sendsGuardedFrom : Bool → List Effect → Bool
  | _, [] => true
  | _, .acquireGuard :: rest => sendsGuardedFrom true rest
  | hasG, .send :: rest => hasG && sendsGuardedFrom hasG rest
  | hasG, _ :: rest => sendsGuardedFrom hasG rest

/-- Every `send` in the effect list is preceded by an `acquireGuard`. -/
def sendsGuarded (l : List Effect) : Bool :=
  sendsGuardedFrom false l

/-- A request as assembled by the reqwest builder chain. -/
structure Request where
  url : String
  params : List (String × String)
deriving DecidableEq, Repr

/-- `client.get(url)`: a fresh request with no query parameters. -/
def getReq (url : String) : Request :=
  ⟨url, []⟩

/-- `.query(&pairs)`: append query pairs to the request. -/
def addQuery (r : Request) (ps : List (String × String)) : Request :=
  { r with params := r.params ++ ps }

/-- The request built by `User::status(client, handle, from, count)` in
`src/lib.rs`: `get(url).query(&[("handle", handle)])
.query(&[("from", from.max(1)), ("count", count.min(1))])`. -/
def userStatusRequest (handle : String) (fr cnt : Nat) : Request :=
  addQuery
    (addQuery (getReq "https://codeforces.com/api/user.status")
      [("handle", handle)])
    [("from", toString (max fr 1)), ("count", toString (min cnt 1))]

end CFApi

namespace CFRate

/-- Back-to-back calls: callers `0, …, n-1` each enter `borrow` and are
handed a token, all before any clock advance and before any release. -/
def burst : Nat → List Act
  | 0 => []
  | n + 1 => burst n ++ [.acquire n, .grant]

/-- State reached from `init K W` after `burst j` (for `j ≤ K`): `j` guards
out at time 0, `K - j` untouched tokens queued. -/
def burstState (K W j : Nat) : St :=
  { cap := K
    win := W
    time := 0
    avail := (List.range' j (K - j)).map (fun i => ⟨i, none⟩)
    waiting := []
    held := (List.range j).reverse.map (fun i => (i, ⟨i, some 0⟩))
    pending := []
    senders := 1
    grants := (List.range j).reverse.map (fun i => ⟨0, i, i⟩)
    refills := 0 }

/-- All `N` callers enter `borrow` at time 0. -/
def acquireAll (N : Nat) : List Act :=
  (List.range N).map Act.acquire

/-- The prompt-release service of caller `j` with capacity `K`: once the
first `K` tokens are spent, each further caller first waits for the oldest
sleep-then-send task (advancing the clock by `W` at each round boundary),
then is granted and immediately drops its guard. -/
def callerActs (K W j : Nat) : List Act :=
  (if K ≤ j then (if j % K = 0 then [Act.tick W] else []) ++ [Act.refill] else [])
  ++ [Act.grant, Act.release j]

/-- Serve the first `j` callers in FIFO order with prompt release. -/
def procCallers (K W : Nat) : Nat → List Act
  | 0 => []
  | j + 1 => procCallers K W j ++ callerActs K W j

/-- The full prompt-release schedule for `N` concurrent callers. -/
def schedule (N K W : Nat) : List Act :=
  acquireAll N ++ procCallers K W N

/-- State reached after serving the first `j ≤ N` callers of
`schedule N K W` (capacity `K ≥ 1`): caller `i < j` was granted token
`i % K` at time `(i / K) * W` and released it immediately. -/
def schedState (N K W j : Nat) : St :=
  { cap := K
    win := W
    time := if j = 0 then 0 else ((j - 1) / K) * W
    avail := (List.range' j (K - j)).map (fun i => ⟨i, none⟩)
    waiting := List.range' j (N - j)
    held := []
    pending := (List.range' (j - min j K) (min j K)).map
      (fun i => ((i / K) * W + W, ⟨i % K, some ((i / K) * W)⟩))
    senders := 1 + min j K
    grants := (List.range j).reverse.map (fun i => ⟨(i / K) * W, i, i % K⟩)
    refills := j - min j K }

/-- State of a capacity-1, window-10 limiter after: grant at time 0, clock
advance to 5, guard dropped at 5, clock advance to 10.  The sleep-then-send
task is scheduled for time 15 = drop time + window. -/
def c3MidState : St :=
  { cap := 1
    win := 10
    time := 10
    avail := []
    waiting := []
    held := []
    pending := [(15, ⟨0, some 0⟩)]
    senders := 2
    grants := [⟨0, 0, 0⟩]
    refills := 0 }

/-- State of a capacity-1, window-1 limiter where caller 0 was granted at
time 0 and never releases, while caller 1 is still queued at time 3. -/
def c9EndState : St :=
  { cap := 1
    win := 1
    time := 3
    avail := []
    waiting := [1]
    held := [(0, ⟨0, some 0⟩)]
    pending := []
    senders := 1
    grants := [⟨0, 0, 0⟩]
    refills := 0 }

/-- The inductive invariant of the limiter, established at `init` and
preserved by every step:

* `hsum`: token conservation — queued + held + in-flight tokens equal `cap`;
* `hsend`: live senders are the limiter's own plus one per spawned task;
* `havail`: a queued token's last grant lies at least a window in the past;
* `hpend`: a task's fire time is at least a window, and at least a window
  after its token's last grant;
* `hheld`: a held token's last grant is not in the future;
* `hids`: the token identities are exactly `0, …, cap - 1`, each once;
* `hlastmax`: `last` is the newest grant time of each token in the log;
* `hgtime`: grant times are not in the future and token ids are in range;
* `hsep`: two grants of the same token are at least a window apart
  (log is newest first);
* `hlate`: every grant after the first `cap` happened at time ≥ one window;
* `hcount`: grants consumed the initial tokens plus the completed refills;
* `hfired`: once a refill has fired, at least one window has passed. -/
structure Inv (s : St) : Prop where
  hsum : s.avail.length + s.held.length + s.pending.length = s.cap
  hsend : s.senders = 1 + s.pending.length
  havail : ∀ tok ∈ s.avail, ∀ g, tok.last = some g → g + s.win ≤ s.time
  hpend : ∀ e ∈ s.pending, s.win ≤ e.1 ∧ ∀ g, e.2.last = some g → g + s.win ≤ e.1
  hheld : ∀ e ∈ s.held, ∀ g, e.2.last = some g → g ≤ s.time
  hids : idMS s = Multiset.range s.cap
  hlastmax : ∀ tok ∈ allToks s, ∀ e ∈ s.grants, e.gtok = tok.id →
    ∃ g, tok.last = some g ∧ e.gtime ≤ g
  hgtime : ∀ e ∈ s.grants, e.gtime ≤ s.time ∧ e.gtok < s.cap
  hsep : s.grants.Pairwise (fun a b => a.gtok = b.gtok → b.gtime + s.win ≤ a.gtime)
  hlate : ∀ e ∈ s.grants.take (s.grants.length - s.cap), s.win ≤ e.gtime
  hcount : s.grants.length + s.avail.length = s.cap + s.refills
  hfired : 1 ≤ s.refills → s.win ≤ s.time

/-- `findHeld` locates the first guard of caller `c`: the guard list splits
around it and the returned rest is the list with that guard removed. -/
theorem findHeld_eq {c : Nat} {l : List (Nat × Token)} {tok : Token}
    {rest : List (Nat × Token)} (h : findHeld c l = some (tok, rest)) :
    ∃ l1 l2, l = l1 ++ (c, tok) :: l2 ∧ rest = l1 ++ l2 := by
  induction l generalizing rest with
  | nil => simp [findHeld] at h
  | cons e l ih =>
    by_cases hc : e.1 = c
    · rw [findHeld, if_pos hc] at h
      obtain ⟨h1, h2⟩ := Prod.mk.injEq .. ▸ Option.some.injEq .. ▸ h
      refine ⟨[], l, ?_, by simp [h2]⟩
      have : e = (c, tok) := by
        obtain ⟨e1, e2⟩ := e
        simp only [Prod.mk.injEq]
        exact ⟨hc, h1⟩
      simp [this]
    · rw [findHeld, if_neg hc] at h
      cases hfl : findHeld c l with
      | none => rw [hfl] at h; simp at h
      | some pr =>
        obtain ⟨tok2, rest2⟩ := pr
        rw [hfl] at h
        simp only [Option.some.injEq, Prod.mk.injEq] at h
        obtain ⟨h1, h2⟩ := h
        obtain ⟨l1, l2, hl, hr⟩ := ih (h1 ▸ hfl)
        exact ⟨e :: l1, l2, by simp [hl], by simp [← h2, hr]⟩

/-- If no guard of caller `c` is held, `findHeld` returns `none`. -/
theorem findHeld_none {c : Nat} {l : List (Nat × Token)}
    (h : ∀ e ∈ l, e.1 ≠ c) : findHeld c l = none := by
  induction l with
  | nil => rfl
  | cons e l ih =>
    rw [findHeld, if_neg (h e (by simp))]
    rw [ih (fun e2 he2 => h e2 (by simp [he2]))]

/-- Every step preserves the construction parameters. -/
theorem step_params {a : Act} {s s2 : St} (h : step a s = .ok s2) :
    s2.cap = s.cap ∧ s2.win = s.win := by
  cases a with
  | tick d => simp only [step, StepRes.ok.injEq] at h; subst h; exact ⟨rfl, rfl⟩
  | acquire c => simp only [step, StepRes.ok.injEq] at h; subst h; exact ⟨rfl, rfl⟩
  | grant =>
    rcases hw : s.waiting with _ | ⟨c, ws⟩ <;> rcases ha : s.avail with _ | ⟨tok, toks⟩ <;>
      simp only [step, hw, ha] at h
    · exact absurd h (by simp)
    · exact absurd h (by simp)
    · split at h <;> simp at h
    · simp only [StepRes.ok.injEq] at h; subst h; exact ⟨rfl, rfl⟩
  | release c =>
    cases hf : findHeld c s.held with
    | none => rw [step.eq_def] at h; simp [hf] at h
    | some pr =>
      obtain ⟨tok, rest⟩ := pr
      rw [step.eq_def] at h
      simp only [hf, StepRes.ok.injEq] at h
      subst h; exact ⟨rfl, rfl⟩
  | refill =>
    rcases hp : s.pending with _ | ⟨⟨f, tok⟩, rest⟩ <;> simp only [step, hp] at h
    · simp at h
    · split at h
      · simp only [StepRes.ok.injEq] at h; subst h; exact ⟨rfl, rfl⟩
      · simp at h
  | cancel c =>
    simp only [step] at h
    split at h
    · simp only [StepRes.ok.injEq] at h; subst h; exact ⟨rfl, rfl⟩
    · simp at h

/-- Advancing the clock preserves the invariant. -/
theorem inv_tick {s : St} {d : Nat} (hI : Inv s) : Inv { s with time := s.time + d } := by
  obtain ⟨h1, h2, h3, h4, h5, h6, h7, h8, h9, h10, h11, h12⟩ := hI
  refine ⟨h1, h2, ?_, h4, ?_, h6, h7, ?_, h9, h10, h11, ?_⟩
  · intro tok ht g hg; exact le_trans (h3 tok ht g hg) (Nat.le_add_right _ _)
  · intro e he g hg; exact le_trans (h5 e he g hg) (Nat.le_add_right _ _)
  · intro e he; exact ⟨le_trans (h8 e he).1 (Nat.le_add_right _ _), (h8 e he).2⟩
  · intro hr; exact le_trans (h12 hr) (Nat.le_add_right _ _)

/-- Changing only the receiver queue preserves the invariant. -/
theorem inv_waiting {s : St} (w : List Nat) (hI : Inv s) : Inv { s with waiting := w } :=
  ⟨hI.hsum, hI.hsend, hI.havail, hI.hpend, hI.hheld, hI.hids, hI.hlastmax, hI.hgtime,
   hI.hsep, hI.hlate, hI.hcount, hI.hfired⟩

/-- The freshly constructed limiter satisfies the invariant. -/
theorem inv_init (K W : Nat) : Inv (init K W) := by
  refine ⟨?_, rfl, ?_, ?_, ?_, ?_, ?_, ?_, ?_, ?_, ?_, ?_⟩
  · simp [init]
  · intro tok ht g hg
    simp only [init, List.mem_map] at ht
    obtain ⟨i, _, hi⟩ := ht
    rw [← hi] at hg
    simp at hg
  · intro e he; simp [init] at he
  · intro e he; simp [init] at he
  · simp only [idMS, allToks, init, List.map_nil, List.append_nil, List.map_map]
    have : ((fun tok => tok.id) ∘ fun i => (⟨i, none⟩ : Token)) = id := rfl
    rw [this, List.map_id]
    rfl
  · intro tok _ e he; simp [init] at he
  · intro e he; simp [init] at he
  · simp [init]
  · intro e he; simp [init] at he
  · simp [init]
  · intro hr; simp [init] at hr

/-- The head token of the queue is the only live token with its identity. -/
theorem id_unique {s : St} (hI : Inv s) {tok : Token} {toks : List Token}
    (ha : s.avail = tok :: toks) {u : Token}
    (hu : u ∈ toks ++ s.held.map Prod.snd ++ s.pending.map Prod.snd) :
    u.id ≠ tok.id := by
  intro he
  have hkey : idMS s =
      tok.id ::ₘ ((toks ++ s.held.map Prod.snd ++ s.pending.map Prod.snd).map Token.id :
        Multiset Nat) := by
    simp only [idMS, allToks, ha, List.cons_append, List.map_cons]
    rfl
  have hcnt : (idMS s).count tok.id ≤ 1 := by
    rw [hI.hids]
    exact Multiset.nodup_iff_count_le_one.mp (Multiset.nodup_range _) _
  have humem : tok.id ∈
      ((toks ++ s.held.map Prod.snd ++ s.pending.map Prod.snd).map Token.id :
        Multiset Nat) := by
    rw [Multiset.mem_coe]
    exact he ▸ List.mem_map_of_mem Token.id hu
  rw [hkey, Multiset.count_cons_self] at hcnt
  have := Multiset.one_le_count_iff_mem.mpr humem
  omega

/-- Every live token's identity is below the capacity. -/
theorem id_lt_cap {s : St} (hI : Inv s) {u : Token} (hu : u ∈ allToks s) :
    u.id < s.cap := by
  have : u.id ∈ idMS s := by
    rw [idMS, Multiset.mem_coe]
    exact List.mem_map_of_mem Token.id hu
  rw [hI.hids, Multiset.mem_range] at this
  exact this

/-- Handing the queued head token to the head waiter preserves the
invariant. -/
theorem inv_grant {s : St} {c : Nat} {ws : List Nat} {tok : Token} {toks : List Token}
    (ha : s.avail = tok :: toks) (hI : Inv s) :
    Inv { s with
          waiting := ws
          avail := toks
          held := (c, { tok with last := some s.time }) :: s.held
          grants := ⟨s.time, c, tok.id⟩ :: s.grants } := by
  have htokav : tok ∈ s.avail := by rw [ha]; exact List.mem_cons_self _ _
  have htokall : tok ∈ allToks s := by
    unfold allToks
    exact List.mem_append_left _ (List.mem_append_left _ htokav)
  have hmemall : ∀ u ∈ toks ++ s.held.map Prod.snd ++ s.pending.map Prod.snd,
      u ∈ allToks s := by
    intro u hu
    simp only [allToks, ha, List.mem_append, List.mem_cons] at hu ⊢
    tauto
  refine ⟨?_, hI.hsend, ?_, hI.hpend, ?_, ?_, ?_, ?_, ?_, ?_, ?_, hI.hfired⟩
  · have := hI.hsum
    rw [ha] at this
    simp only [List.length_cons] at this ⊢
    omega
  · intro t ht g hg
    exact hI.havail t (by rw [ha]; exact List.mem_cons_of_mem _ ht) g hg
  · intro e he g hg
    rcases List.mem_cons.mp he with he0 | hold
    · rw [he0] at hg
      simp only at hg
      rw [Option.some.injEq] at hg
      show g ≤ s.time
      omega
    · exact hI.hheld e hold g hg
  · show idMS _ = _
    have hperm : idMS { s with
        waiting := ws
        avail := toks
        held := (c, { tok with last := some s.time }) :: s.held
        grants := ⟨s.time, c, tok.id⟩ :: s.grants } = idMS s := by
      simp only [idMS, allToks, ha, List.map_append, List.map_cons, List.cons_append,
        ← Multiset.cons_coe, ← Multiset.coe_add, ← Multiset.singleton_add]
      abel
    rw [hperm, hI.hids]
  · intro u hu e he hid
    simp only [allToks, List.map_cons, List.cons_append] at hu
    have hu2 : u = { tok with last := some s.time } ∨
        u ∈ toks ++ s.held.map Prod.snd ++ s.pending.map Prod.snd := by
      simp only [List.mem_append, List.mem_cons] at hu ⊢
      tauto
    rcases hu2 with rfl | hu3
    · refine ⟨s.time, rfl, ?_⟩
      rcases List.mem_cons.mp he with he0 | hold
      · rw [he0]
      · have hid2 : e.gtok = tok.id := hid
        obtain ⟨g, hg, hge⟩ := hI.hlastmax tok htokall e hold hid2
        have := hI.havail tok htokav g hg
        omega
    · have hne := id_unique hI ha hu3
      rcases List.mem_cons.mp he with he0 | hold
      · rw [he0] at hid
        exact absurd hid.symm hne
      · exact hI.hlastmax u (hmemall u hu3) e hold hid
  · intro e he
    rcases List.mem_cons.mp he with he0 | hold
    · rw [he0]
      exact ⟨le_refl _, id_lt_cap hI (by rw [allToks, ha]; simp)⟩
    · exact hI.hgtime e hold
  · refine List.pairwise_cons.mpr ⟨?_, hI.hsep⟩
    intro b hb hid
    obtain ⟨g, hg, hge⟩ := hI.hlastmax tok htokall b hb hid.symm
    have := hI.havail tok htokav g hg
    simp only
    omega
  · intro e he
    simp only [List.length_cons] at he
    by_cases hlen : s.grants.length < s.cap
    · rw [Nat.sub_eq_zero_of_le hlen] at he
      simp at he
    · push_neg at hlen
      have hstep : s.grants.length + 1 - s.cap = (s.grants.length - s.cap) + 1 := by omega
      rw [hstep, List.take_succ_cons] at he
      rcases List.mem_cons.mp he with he0 | hold
      · rw [he0]
        have hav : s.avail.length = toks.length + 1 := by rw [ha]; simp
        have hcnt := hI.hcount
        have hrf : 1 ≤ s.refills := by omega
        exact hI.hfired hrf
      · exact hI.hlate e hold
  · have := hI.hcount
    have hav : s.avail.length = toks.length + 1 := by rw [ha]; simp
    simp only [List.length_cons]
    omega

/-- Dropping a guard (spawning its sleep-then-send task) preserves the
invariant. -/
theorem inv_release {s : St} {c : Nat} {tok : Token} {rest : List (Nat × Token)}
    (hf : findHeld c s.held = some (tok, rest)) (hI : Inv s) :
    Inv { s with
          held := rest
          pending := s.pending ++ [(s.time + s.win, tok)]
          senders := s.senders + 1 } := by
  obtain ⟨l1, l2, hl, hr⟩ := findHeld_eq hf
  have htokheld : (c, tok) ∈ s.held := by
    rw [hl]
    exact List.mem_append_right _ (List.mem_cons_self _ _)
  have hrest : ∀ e ∈ rest, e ∈ s.held := by
    intro e he
    rw [hr] at he
    rw [hl]
    rcases List.mem_append.mp he with h1 | h2
    · exact List.mem_append_left _ h1
    · exact List.mem_append_right _ (List.mem_cons_of_mem _ h2)
  refine ⟨?_, ?_, hI.havail, ?_, ?_, ?_, ?_, hI.hgtime, hI.hsep, hI.hlate, hI.hcount,
    hI.hfired⟩
  · have := hI.hsum
    rw [hl] at this
    rw [hr]
    simp only [List.length_append, List.length_cons, List.length_nil] at this ⊢
    omega
  · have := hI.hsend
    simp only [List.length_append, List.length_cons, List.length_nil]
    omega
  · intro e he
    rcases List.mem_append.mp he with hold | hnew
    · exact hI.hpend e hold
    · rw [List.mem_singleton] at hnew
      rw [hnew]
      refine ⟨Nat.le_add_left _ _, ?_⟩
      intro g hg
      have := hI.hheld (c, tok) htokheld g hg
      simp only
      omega
  · intro e he g hg
    exact hI.hheld e (hrest e he) g hg
  · show idMS _ = _
    have hperm : idMS { s with
        held := rest
        pending := s.pending ++ [(s.time + s.win, tok)]
        senders := s.senders + 1 } = idMS s := by
      simp only [idMS, allToks, hl, hr, List.map_append, List.map_cons, List.map_nil,
        ← Multiset.cons_coe, ← Multiset.coe_add, ← Multiset.singleton_add,
        Multiset.coe_nil]
      abel
    rw [hperm, hI.hids]
  · intro u hu e he hid
    have hall : u ∈ allToks s := by
      simp only [allToks, hl, hr, List.map_append, List.map_cons, List.map_nil,
        List.mem_append, List.mem_cons, List.mem_singleton] at hu ⊢
      tauto
    exact hI.hlastmax u hall e he hid

/-- A sleep-then-send task completing (token re-queued) preserves the
invariant. -/
theorem inv_refill {s : St} {f : Nat} {tok : Token} {rest : List (Nat × Token)}
    (hp : s.pending = (f, tok) :: rest) (hc : f ≤ s.time ∧ s.avail.length < s.cap)
    (hI : Inv s) :
    Inv { s with
          pending := rest
          avail := s.avail ++ [tok]
          senders := s.senders - 1
          refills := s.refills + 1 } := by
  have hhead : (f, tok) ∈ s.pending := by rw [hp]; exact List.mem_cons_self _ _
  have hheadpend := hI.hpend (f, tok) hhead
  refine ⟨?_, ?_, ?_, ?_, hI.hheld, ?_, ?_, hI.hgtime, hI.hsep, hI.hlate, ?_, ?_⟩
  · have := hI.hsum
    rw [hp] at this
    simp only [List.length_append, List.length_cons, List.length_nil] at this ⊢
    omega
  · have := hI.hsend
    rw [hp] at this
    simp only [List.length_cons] at this ⊢
    omega
  · intro t ht g hg
    rcases List.mem_append.mp ht with hold | hnew
    · exact hI.havail t hold g hg
    · rw [List.mem_singleton] at hnew
      rw [hnew] at hg
      have := hheadpend.2 g hg
      simp only
      omega
  · intro e he
    exact hI.hpend e (by rw [hp]; exact List.mem_cons_of_mem _ he)
  · show idMS _ = _
    have hperm : idMS { s with
        pending := rest
        avail := s.avail ++ [tok]
        senders := s.senders - 1
        refills := s.refills + 1 } = idMS s := by
      simp only [idMS, allToks, hp, List.map_append, List.map_cons, List.map_nil,
        ← Multiset.cons_coe, ← Multiset.coe_add, ← Multiset.singleton_add,
        Multiset.coe_nil]
      abel
    rw [hperm, hI.hids]
  · intro u hu e he hid
    have hall : u ∈ allToks s := by
      simp only [allToks, hp, List.map_append, List.map_cons, List.map_nil,
        List.mem_append, List.mem_cons, List.mem_singleton] at hu ⊢
      tauto
    exact hI.hlastmax u hall e he hid
  · have := hI.hcount
    simp only [List.length_append, List.length_cons, List.length_nil]
    omega
  · intro _
    have := hheadpend.1
    show s.win ≤ s.time
    omega

/-- Any successor state of an invariant state satisfies the invariant. -/
theorem inv_step {a : Act} {s s2 : St} (h : step a s = .ok s2) (hI : Inv s) : Inv s2 := by
  cases a with
  | tick d =>
    simp only [step, StepRes.ok.injEq] at h
    subst h
    exact inv_tick hI
  | acquire c =>
    simp only [step, StepRes.ok.injEq] at h
    subst h
    exact inv_waiting _ hI
  | grant =>
    rcases hw : s.waiting with _ | ⟨c, ws⟩ <;> rcases ha : s.avail with _ | ⟨tok, toks⟩ <;>
      simp only [step, hw, ha] at h
    · exact absurd h (by simp)
    · exact absurd h (by simp)
    · split at h <;> simp at h
    · simp only [StepRes.ok.injEq] at h
      subst h
      exact inv_grant ha hI
  | release c =>
    cases hf : findHeld c s.held with
    | none => rw [step.eq_def] at h; simp [hf] at h
    | some pr =>
      obtain ⟨tok, rest⟩ := pr
      rw [step.eq_def] at h
      simp only [hf, StepRes.ok.injEq] at h
      subst h
      exact inv_release hf hI
  | refill =>
    rcases hp : s.pending with _ | ⟨⟨f, tok⟩, rest⟩ <;> simp only [step, hp] at h
    · simp at h
    · by_cases hcond : f ≤ s.time ∧ s.avail.length < s.cap
      · rw [if_pos hcond] at h
        simp only [StepRes.ok.injEq] at h
        subst h
        exact inv_refill hp hcond hI
      · rw [if_neg hcond] at h
        simp at h
  | cancel c =>
    simp only [step] at h
    split at h
    · simp only [StepRes.ok.injEq] at h
      subst h
      exact inv_waiting _ hI
    · simp at h

/-- The invariant holds in every state reached by a run. -/
theorem run_inv {acts : List Act} : ∀ {s s2 : St}, Inv s → run acts s = .ok s2 → Inv s2 := by
  induction acts with
  | nil =>
    intro s s2 hI h
    simp only [run, StepRes.ok.injEq] at h
    subst h
    exact hI
  | cons a rest ih =>
    intro s s2 hI h
    rw [run] at h
    cases hs : step a s with
    | ok s3 => rw [hs] at h; exact ih (inv_step hs hI) h
    | blocked => rw [hs] at h; simp at h
    | crash => rw [hs] at h; simp at h

/-- Construction parameters are preserved along any run. -/
theorem run_params {acts : List Act} :
    ∀ {s s2 : St}, run acts s = .ok s2 → s2.cap = s.cap ∧ s2.win = s.win := by
  induction acts with
  | nil =>
    intro s s2 h
    simp only [run, StepRes.ok.injEq] at h
    subst h
    exact ⟨rfl, rfl⟩
  | cons a rest ih =>
    intro s s2 h
    rw [run] at h
    cases hs : step a s with
    | ok s3 =>
      rw [hs] at h
      obtain ⟨h1, h2⟩ := step_params hs
      obtain ⟨h3, h4⟩ := ih h
      exact ⟨h3.trans h1, h4.trans h2⟩
    | blocked => rw [hs] at h; simp at h
    | crash => rw [hs] at h; simp at h

/-- No single step from an invariant state panics: the only panic source is
`recv_async().unwrap()` on a disconnected channel, and the sender count is
always at least one. -/
theorem step_no_crash {a : Act} {s : St} (hI : Inv s) : step a s ≠ .crash := by
  cases a with
  | tick d => simp [step]
  | acquire c => simp [step]
  | grant =>
    rcases hw : s.waiting with _ | ⟨c, ws⟩ <;> rcases ha : s.avail with _ | ⟨tok, toks⟩ <;>
      simp only [step, hw, ha]
    · simp
    · simp
    · have := hI.hsend
      rw [if_neg (by omega)]
      simp
    · simp
  | release c =>
    rw [step.eq_def]
    cases hf : findHeld c s.held with
    | none => simp [hf]
    | some pr => obtain ⟨tok, rest⟩ := pr; simp [hf]
  | refill =>
    rcases hp : s.pending with _ | ⟨⟨f, tok⟩, rest⟩ <;> simp only [step, hp]
    · simp
    · split <;> simp
  | cancel c =>
    simp only [step]
    split <;> simp

/-- No run from an invariant state panics. -/
theorem run_no_crash {acts : List Act} : ∀ {s : St}, Inv s → run acts s ≠ .crash := by
  induction acts with
  | nil => intro s _; simp [run]
  | cons a rest ih =>
    intro s hI
    rw [run]
    cases hs : step a s with
    | ok s3 => exact ih (inv_step hs hI)
    | blocked => simp
    | crash => exact absurd hs (step_no_crash hI)

/-- Equation for a successful grant step. -/
theorem step_grant_eq {s : St} {c : Nat} {ws : List Nat} {tok : Token} {toks : List Token}
    (hw : s.waiting = c :: ws) (ha : s.avail = tok :: toks) :
    step .grant s = .ok { s with
      waiting := ws
      avail := toks
      held := (c, { tok with last := some s.time }) :: s.held
      grants := ⟨s.time, c, tok.id⟩ :: s.grants } := by
  simp only [step, hw, ha]

/-- Equation for a successful release step. -/
theorem step_release_eq {s : St} {c : Nat} {tok : Token} {rest : List (Nat × Token)}
    (hf : findHeld c s.held = some (tok, rest)) :
    step (.release c) s = .ok { s with
      held := rest
      pending := s.pending ++ [(s.time + s.win, tok)]
      senders := s.senders + 1 } := by
  rw [step.eq_def]
  simp only [hf]

/-- Equation for a successful refill step. -/
theorem step_refill_eq {s : St} {f : Nat} {tok : Token} {rest : List (Nat × Token)}
    (hp : s.pending = (f, tok) :: rest) (hc : f ≤ s.time ∧ s.avail.length < s.cap) :
    step .refill s = .ok { s with
      pending := rest
      avail := s.avail ++ [tok]
      senders := s.senders - 1
      refills := s.refills + 1 } := by
  simp only [step, hp]
  rw [if_pos hc]

/-- A run of a cons list with a successful first step. -/
theorem run_cons_ok {a : Act} {s s2 : St} (h : step a s = .ok s2) (rest : List Act) :
    run (a :: rest) s = run rest s2 := by
  rw [run, h]

/-- A run of an append whose first half succeeds. -/
theorem run_append_ok {l1 : List Act} {s s2 : St} (h : run l1 s = .ok s2) (l2 : List Act) :
    run (l1 ++ l2) s = run l2 s2 := by
  induction l1 generalizing s with
  | nil =>
    simp only [run, StepRes.ok.injEq] at h
    subst h
    simp
  | cons a rest ih =>
    rw [run] at h
    rw [List.cons_append, run]
    cases hs : step a s with
    | ok s3 => rw [hs] at h; exact ih h
    | blocked => rw [hs] at h; simp at h
    | crash => rw [hs] at h; simp at h

/-- A list of naturals without duplicates, all below `n`, has length at
most `n`. -/
theorem nodup_lt_length_le {l : List Nat} {n : Nat} (hnd : l.Nodup)
    (hlt : ∀ x ∈ l, x < n) : l.length ≤ n := by
  classical
  have h1 : l.toFinset.card = l.length := List.toFinset_card_of_nodup hnd
  have h2 : l.toFinset ⊆ Finset.range n := by
    intro x hx
    rw [List.mem_toFinset] at hx
    rw [Finset.mem_range]
    exact hlt x hx
  have h3 := Finset.card_le_card h2
  rw [h1, Finset.card_range] at h3
  exact h3

/-- A grant log in which equal tokens are granted at least `win` apart and
all token ids are below `cap` has at most `cap` grants in any half-open
window of length `win`. -/
theorem window_bound {l : List GEntry} {cap win t : Nat}
    (hsep : l.Pairwise (fun a b => a.gtok = b.gtok → b.gtime + win ≤ a.gtime))
    (hid : ∀ e ∈ l, e.gtok < cap) :
    windowCount t win l ≤ cap := by
  unfold windowCount
  set L := l.filter (fun e => decide (t ≤ e.gtime) && decide (e.gtime < t + win)) with hL
  have hsub : L.Sublist l := List.filter_sublist l
  have hsepL : L.Pairwise (fun a b => a.gtok = b.gtok → b.gtime + win ≤ a.gtime) :=
    hsep.sublist hsub
  have hinL : ∀ e ∈ L, t ≤ e.gtime ∧ e.gtime < t + win := by
    intro e he
    have := List.of_mem_filter he
    simpa using this
  have hne : L.Pairwise (fun a b => a.gtok ≠ b.gtok) := by
    refine List.Pairwise.imp_of_mem ?_ hsepL
    intro a b ha hb hab heq
    have h1 := hinL a ha
    have h2 := hinL b hb
    have := hab heq
    omega
  have hmapnd : (L.map GEntry.gtok).Nodup := List.pairwise_map.mpr hne
  have hlen : L.length = (L.map GEntry.gtok).length := by simp
  rw [hlen]
  refine nodup_lt_length_le hmapnd ?_
  intro x hx
  obtain ⟨e, he, hex⟩ := List.mem_map.mp hx
  rw [← hex]
  exact hid e (hsub.subset he)

/-- C1: in every reachable state of a limiter with capacity `K` and window
`W`, the number of outstanding guards plus the number of immediately
available permits never exceeds `K`, and no more than `K` grants occur
within any half-open interval `[t, t + W)`. -/
theorem capacity_bound (K W t : Nat) (acts : List Act) (s : St)
    (h : run acts (init K W) = .ok s) :
    s.held.length + s.avail.length ≤ K ∧ windowCount t W s.grants ≤ K := by
  have hI := run_inv (inv_init K W) h
  have hcap : s.cap = K := (run_params h).1
  have hwin : s.win = W := (run_params h).2
  constructor
  · have := hI.hsum
    omega
  · have hid : ∀ e ∈ s.grants, e.gtok < K := by
      intro e he
      have := (hI.hgtime e he).2
      omega
    rw [← hwin]
    exact window_bound hI.hsep hid

/-- Instance of the capacity bound at a concrete reachable state. -/
theorem capacity_bound_instance :
    (init 2 5).held.length + (init 2 5).avail.length ≤ 2 ∧
    windowCount 0 5 (init 2 5).grants ≤ 2 :=
  capacity_bound 2 5 0 [] (init 2 5) rfl

/-- C4: `borrow` never fails with an error and never panics — no run from a
fresh limiter, for any capacity, window and action sequence, reaches the
panic outcome; a caller is only ever granted or kept suspended. -/
theorem borrow_never_panics (K W : Nat) (acts : List Act) :
    isCrash (run acts (init K W)) = false := by
  cases hr : run acts (init K W) with
  | ok s => rfl
  | blocked => rfl
  | crash => exact absurd hr (run_no_crash (inv_init K W))

/-- C5: cancelling a suspended `borrow` changes only the receiver queue:
permits, guards, pending refills, senders and the grant log are untouched,
and a grant is still possible whenever a waiter and a permit remain. -/
theorem cancellation_capacity_neutral (s s2 : St) (c : Nat)
    (h : step (.cancel c) s = .ok s2) :
    s2.avail = s.avail ∧ s2.held = s.held ∧ s2.pending = s.pending ∧
    s2.grants = s.grants ∧ s2.senders = s.senders ∧ s2.refills = s.refills ∧
    s2.time = s.time ∧ s2.waiting = s.waiting.erase c ∧
    (s2.waiting.isEmpty = false → s2.avail.isEmpty = false →
      isOk (step .grant s2) = true) := by
  simp only [step] at h
  split at h
  · simp only [StepRes.ok.injEq] at h
    subst h
    refine ⟨rfl, rfl, rfl, rfl, rfl, rfl, rfl, rfl, ?_⟩
    intro hw ha
    change (s.waiting.erase c).isEmpty = false at hw
    change s.avail.isEmpty = false at ha
    rcases hwe : s.waiting.erase c with _ | ⟨d, ds⟩
    · rw [hwe] at hw; simp at hw
    · rcases hae : s.avail with _ | ⟨tok, toks⟩
      · rw [hae] at ha; simp at ha
      · rfl
  · simp at h

/-- Instance of cancellation neutrality: cancelling waiter 7 leaves the
permit queue intact and waiter 3 can still be granted. -/
theorem cancellation_capacity_neutral_instance :
    ({ cap := 1
       win := 1
       time := 0
       avail := [⟨0, none⟩]
       waiting := [3]
       held := []
       pending := []
       senders := 1
       grants := []
       refills := 0 } : St).avail =
      ({ cap := 1
         win := 1
         time := 0
         avail := [⟨0, none⟩]
         waiting := [7, 3]
         held := []
         pending := []
         senders := 1
         grants := []
         refills := 0 } : St).avail ∧
    isOk (step .grant { cap := 1
                        win := 1
                        time := 0
                        avail := [⟨0, none⟩]
                        waiting := [3]
                        held := []
                        pending := []
                        senders := 1
                        grants := []
                        refills := 0 }) = true := by
  have h := cancellation_capacity_neutral
    { cap := 1
      win := 1
      time := 0
      avail := [⟨0, none⟩]
      waiting := [7, 3]
      held := []
      pending := []
      senders := 1
      grants := []
      refills := 0 }
    { cap := 1
      win := 1
      time := 0
      avail := [⟨0, none⟩]
      waiting := [3]
      held := []
      pending := []
      senders := 1
      grants := []
      refills := 0 }
    7 (by decide)
  exact ⟨h.1, h.2.2.2.2.2.2.2.2 (by decide) (by decide)⟩

/-- C6: release bookkeeping runs once per guard: the available queue of a
reachable state never exceeds the capacity, and once caller `c`'s only
guard has been released, a second release of it is disabled (a no-op). -/
theorem release_idempotent_no_overcredit (K W c : Nat) (acts : List Act) (s s2 : St)
    (h : run acts (init K W) = .ok s) :
    s.avail.length ≤ K ∧
    (step (.release c) s = .ok s2 → s2.held.all (fun e => !(e.1 == c)) = true →
      step (.release c) s2 = .blocked) := by
  have hI := run_inv (inv_init K W) h
  have hcap : s.cap = K := (run_params h).1
  refine ⟨by have := hI.hsum; omega, ?_⟩
  intro _ hall
  have hnone : findHeld c s2.held = none := by
    refine findHeld_none ?_
    intro e he
    have := List.all_eq_true.mp hall e he
    simpa using this
  rw [step.eq_def]
  simp only [hnone]

/-- Instance of idempotent release: after caller 0 releases its guard, a
second release of the same guard is disabled. -/
theorem release_idempotent_no_overcredit_instance :
    ({ cap := 1
       win := 1
       time := 0
       avail := []
       waiting := []
       held := [(0, ⟨0, some 0⟩)]
       pending := []
       senders := 1
       grants := [⟨0, 0, 0⟩]
       refills := 0 } : St).avail.length ≤ 1 ∧
    step (.release 0) ({ cap := 1
                         win := 1
                         time := 0
                         avail := []
                         waiting := []
                         held := []
                         pending := [(1, ⟨0, some 0⟩)]
                         senders := 2
                         grants := [⟨0, 0, 0⟩]
                         refills := 0 } : St) = .blocked := by
  have h := release_idempotent_no_overcredit 1 1 0 [.acquire 0, .grant]
    { cap := 1
      win := 1
      time := 0
      avail := []
      waiting := []
      held := [(0, ⟨0, some 0⟩)]
      pending := []
      senders := 1
      grants := [⟨0, 0, 0⟩]
      refills := 0 }
    { cap := 1
      win := 1
      time := 0
      avail := []
      waiting := []
      held := []
      pending := [(1, ⟨0, some 0⟩)]
      senders := 2
      grants := [⟨0, 0, 0⟩]
      refills := 0 }
    (by decide)
  exact ⟨h.1, h.2 (by decide) (by decide)⟩

/-- C3 counterexample: with capacity 1 and window 10, the permit taken at
time 0 and dropped at time 5 is not available at time 10 — take time plus
window, as the claim states — the refill is still blocked then; it becomes
available exactly at time 15, drop time plus window. -/
theorem refill_not_at_take_time :
    run [.acquire 0, .grant, .tick 5, .release 0, .tick 5] (init 1 10) = .ok c3MidState ∧
    step .refill c3MidState = .blocked ∧
    step .refill { c3MidState with time := 15 } =
      .ok { cap := 1
            win := 10
            time := 15
            avail := [⟨0, some 0⟩]
            waiting := []
            held := []
            pending := []
            senders := 1
            grants := [⟨0, 0, 0⟩]
            refills := 1 } :=
  ⟨by decide, by decide, by decide⟩

/-- C3 amended: every release schedules exactly one refill, whose fire time
is the drop time plus the window, and a pending refill at the head of the
queue fires exactly when its fire time has been reached (and the bounded
channel has room). -/
theorem release_schedules_one_refill_after_drop (s s2 u : St) (c f : Nat) (tok : Token)
    (rest : List (Nat × Token)) :
    (step (.release c) s = .ok s2 →
      s2.pending.map Prod.fst = s.pending.map Prod.fst ++ [s.time + s.win] ∧
      s2.pending.length = s.pending.length + 1) ∧
    (u.pending = (f, tok) :: rest →
      (isOk (step .refill u) = true ↔ f ≤ u.time ∧ u.avail.length < u.cap)) := by
  constructor
  · intro h
    cases hf : findHeld c s.held with
    | none => rw [step.eq_def] at h; simp [hf] at h
    | some pr =>
      obtain ⟨tk, rst⟩ := pr
      rw [step_release_eq hf] at h
      simp only [StepRes.ok.injEq] at h
      subst h
      simp
  · intro hp
    by_cases hc : f ≤ u.time ∧ u.avail.length < u.cap
    · rw [step_refill_eq hp hc]
      simp [isOk, hc]
    · simp only [step, hp]
      rw [if_neg hc]
      simp [isOk, hc]

/-- Instance of the amended refill timing at a concrete release and a
concrete pending refill. -/
theorem release_schedules_one_refill_after_drop_instance :
    (({ cap := 1
        win := 10
        time := 5
        avail := []
        waiting := []
        held := []
        pending := [(15, ⟨0, some 0⟩)]
        senders := 2
        grants := [⟨0, 0, 0⟩]
        refills := 0 } : St).pending.map Prod.fst =
      ({ cap := 1
         win := 10
         time := 5
         avail := []
         waiting := []
         held := [(0, ⟨0, some 0⟩)]
         pending := []
         senders := 1
         grants := [⟨0, 0, 0⟩]
         refills := 0 } : St).pending.map Prod.fst ++ [5 + 10] ∧
     ({ cap := 1
        win := 10
        time := 5
        avail := []
        waiting := []
        held := []
        pending := [(15, ⟨0, some 0⟩)]
        senders := 2
        grants := [⟨0, 0, 0⟩]
        refills := 0 } : St).pending.length =
      ({ cap := 1
         win := 10
         time := 5
         avail := []
         waiting := []
         held := [(0, ⟨0, some 0⟩)]
         pending := []
         senders := 1
         grants := [⟨0, 0, 0⟩]
         refills := 0 } : St).pending.length + 1) ∧
    (isOk (step .refill c3MidState) = true ↔
      15 ≤ c3MidState.time ∧ c3MidState.avail.length < c3MidState.cap) := by
  have h := release_schedules_one_refill_after_drop
    { cap := 1
      win := 10
      time := 5
      avail := []
      waiting := []
      held := [(0, ⟨0, some 0⟩)]
      pending := []
      senders := 1
      grants := [⟨0, 0, 0⟩]
      refills := 0 }
    { cap := 1
      win := 10
      time := 5
      avail := []
      waiting := []
      held := []
      pending := [(15, ⟨0, some 0⟩)]
      senders := 2
      grants := [⟨0, 0, 0⟩]
      refills := 0 }
    c3MidState 0 15 ⟨0, some 0⟩ []
  exact ⟨h.1 (by decide), h.2 (by decide)⟩

/-- C7 counterexample: `Ratelimit::new` accepts capacity 0 without any
failure — it returns an ordinary limiter whose permit queue is empty — and
a borrow attempt on it simply blocks instead of failing fast. -/
theorem zero_capacity_accepted :
    (init 0 5).cap = 0 ∧ (init 0 5).avail = [] ∧
    run [.acquire 0, .grant] (init 0 5) = .blocked :=
  ⟨rfl, rfl, by decide⟩

/-- C7 amended: construction performs no validation — any capacity and
window are accepted as given — and a capacity-0 limiter is degenerate: no
grant ever occurs in any of its runs. -/
theorem construction_unvalidated (K W : Nat) (acts : List Act) (s : St) :
    (init K W).cap = K ∧ (init K W).win = W ∧
    (run acts (init 0 W) = .ok s → s.grants = []) := by
  refine ⟨rfl, rfl, ?_⟩
  intro h
  have hI := run_inv (inv_init 0 W) h
  have hcap : s.cap = 0 := (run_params h).1
  rcases hg : s.grants with _ | ⟨e, es⟩
  · rfl
  · have := (hI.hgtime e (by rw [hg]; exact List.mem_cons_self _ _)).2
    rw [hcap] at this
    omega

/-- Instance of unvalidated construction with capacity 0. -/
theorem construction_unvalidated_instance :
    (init 3 7).cap = 3 ∧ (init 3 7).win = 7 ∧ (init 0 7).grants = [] := by
  have h := construction_unvalidated 3 7 [] (init 0 7)
  exact ⟨h.1, h.2.1, h.2.2 rfl⟩

/-- Running `burst j` from a fresh limiter, for `j ≤ K`, succeeds with all
`j` grants at time 0 and no suspension. -/
theorem burst_run (K W : Nat) :
    ∀ j, j ≤ K → run (burst j) (init K W) = .ok (burstState K W j) := by
  intro j
  induction j with
  | zero =>
    intro _
    have h0 : burstState K W 0 = init K W := by
      simp [burstState, init, List.range_eq_range']
    rw [h0]
    rfl
  | succ j ih =>
    intro hj
    rw [burst, run_append_ok (ih (by omega))]
    have havail : (burstState K W j).avail
        = (⟨j, none⟩ : Token) ::
          (List.range' (j + 1) (K - (j + 1))).map (fun i => (⟨i, none⟩ : Token)) := by
      show (List.range' j (K - j)).map _ = _
      rw [show K - j = (K - (j + 1)) + 1 by omega, List.range'_succ, List.map_cons]
    have hs1 : step (.acquire j) (burstState K W j)
        = .ok { burstState K W j with waiting := [j] } := rfl
    rw [run_cons_ok hs1]
    have hs2 := step_grant_eq (s := { burstState K W j with waiting := [j] })
      (show ({ burstState K W j with waiting := [j] } : St).waiting = j :: ([] : List Nat)
        from rfl) havail
    rw [run_cons_ok hs2]
    show StepRes.ok _ = _
    congr 1
    simp [burstState, List.range_succ]

/-- Entering `borrow` appends callers `0, …, N-1` to the receiver queue. -/
theorem acquireAll_run (N : Nat) : ∀ s : St,
    run (acquireAll N) s = .ok { s with waiting := s.waiting ++ List.range N } := by
  induction N with
  | zero =>
    intro s
    show run [] s = _
    simp [run]
  | succ N ih =>
    intro s
    have hsplit : acquireAll (N + 1) = acquireAll N ++ [.acquire N] := by
      unfold acquireAll
      rw [List.range_succ, List.map_append]
      rfl
    rw [hsplit, run_append_ok (ih s)]
    show StepRes.ok _ = _
    congr 1
    simp [List.range_succ]

/-- A waiting caller is granted the head token and immediately drops the
guard: combined effect of `grant` then `release`. -/
theorem grant_release_run {s : St} {c : Nat} {ws : List Nat} {tok : Token} {toks : List Token}
    (hw : s.waiting = c :: ws) (ha : s.avail = tok :: toks) (hheld : s.held = []) :
    run [.grant, .release c] s = .ok { s with
      waiting := ws
      avail := toks
      held := []
      pending := s.pending ++ [(s.time + s.win, { tok with last := some s.time })]
      senders := s.senders + 1
      grants := ⟨s.time, c, tok.id⟩ :: s.grants } := by
  rw [run_cons_ok (step_grant_eq hw ha)]
  have hfind : findHeld c ((c, { tok with last := some s.time }) :: s.held)
      = some ({ tok with last := some s.time }, s.held) := by
    simp [findHeld]
  rw [run_cons_ok (step_release_eq
    (s := { s with
      waiting := ws
      avail := toks
      held := (c, { tok with last := some s.time }) :: s.held
      grants := ⟨s.time, c, tok.id⟩ :: s.grants }) hfind)]
  show StepRes.ok _ = _
  congr 1
  simp only [hheld]

/-- With no token queued but a due sleep-then-send task, the task fires,
the head waiter is granted the returned token and immediately drops the
guard: combined effect of `refill`, `grant`, `release`. -/
theorem refill_grant_release_run {s : St} {c : Nat} {ws : List Nat} {f : Nat} {tok : Token}
    {rest : List (Nat × Token)}
    (hw : s.waiting = c :: ws) (ha : s.avail = []) (hp : s.pending = (f, tok) :: rest)
    (hf : f ≤ s.time) (hcap : 0 < s.cap) (hheld : s.held = []) :
    run [.refill, .grant, .release c] s = .ok { s with
      waiting := ws
      avail := []
      held := []
      pending := rest ++ [(s.time + s.win, { tok with last := some s.time })]
      senders := s.senders - 1 + 1
      grants := ⟨s.time, c, tok.id⟩ :: s.grants
      refills := s.refills + 1 } := by
  rw [run_cons_ok (step_refill_eq hp ⟨hf, by rw [ha]; simpa using hcap⟩)]
  have ha2 : ({ s with
      pending := rest
      avail := s.avail ++ [tok]
      senders := s.senders - 1
      refills := s.refills + 1 } : St).avail = tok :: [] := by
    show s.avail ++ [tok] = _
    rw [ha]
    rfl
  have hw2 : ({ s with
      pending := rest
      avail := s.avail ++ [tok]
      senders := s.senders - 1
      refills := s.refills + 1 } : St).waiting = c :: ws := hw
  rw [run_cons_ok (step_grant_eq hw2 ha2)]
  have hfind : findHeld c ((c, { tok with last := some s.time }) :: s.held)
      = some ({ tok with last := some s.time }, s.held) := by
    simp [findHeld]
  rw [run_cons_ok (step_release_eq
    (s := { s with
      pending := rest
      avail := []
      senders := s.senders - 1
      refills := s.refills + 1
      waiting := ws
      held := (c, { tok with last := some s.time }) :: s.held
      grants := ⟨s.time, c, tok.id⟩ :: s.grants }) hfind)]
  show StepRes.ok _ = _
  congr 1
  simp only [hheld]


/-- The prompt-release schedule: with capacity `K ≥ 1`, after `N` callers
queue up at time 0, serving the first `j ≤ N` callers grants caller `i`
token `i % K` at time `(i / K) * W` and ends in the round state
`schedState N K W j`. -/
theorem sched_run (N K W : Nat) (hK : 1 ≤ K) :
    ∀ j, j ≤ N →
      run (acquireAll N ++ procCallers K W j) (init K W) = .ok (schedState N K W j) := by
  intro j
  induction j with
  | zero =>
    intro _
    rw [run_append_ok (acquireAll_run N (init K W))]
    have h0 : schedState N K W 0
        = { init K W with waiting := (init K W).waiting ++ List.range N } := by
      simp [schedState, init, List.range_eq_range']
    rw [h0]
    rfl
  | succ j ih =>
    intro hj
    have hj' : j ≤ N := by omega
    have hsplit : acquireAll N ++ procCallers K W (j + 1)
        = (acquireAll N ++ procCallers K W j) ++ callerActs K W j := by
      rw [procCallers, List.append_assoc]
    rw [hsplit, run_append_ok (ih hj')]
    have hwaiting : (schedState N K W j).waiting
        = j :: List.range' (j + 1) (N - (j + 1)) := by
      show List.range' j (N - j) = _
      rw [show N - j = (N - (j + 1)) + 1 by omega, List.range'_succ]
    by_cases hcase : K ≤ j
    · have hj1 : 1 ≤ j := le_trans hK hcase
      have hq1 : 1 ≤ j / K := Nat.div_pos hcase (by omega)
      have hsub : j - K + K = j := Nat.sub_add_cancel hcase
      have hdivK : j / K = (j - K) / K + 1 := by
        conv_lhs => rw [← hsub]
        rw [Nat.add_div_right _ (by omega)]
      have hmodK : j % K = (j - K) % K := by
        conv_lhs => rw [← hsub]
        rw [Nat.add_mod_right]
      have hsd : j / K = (j - 1) / K + if K ∣ j then 1 else 0 := by
        have h := Nat.succ_div (j - 1) K
        rw [Nat.sub_add_cancel hj1] at h
        exact h
      have havail0 : (schedState N K W j).avail = [] := by
        show (List.range' j (K - j)).map _ = []
        rw [show K - j = 0 by omega]
        rfl
      have hminK : min j K = K := Nat.min_eq_right hcase
      have hminK2 : min (j + 1) K = K := Nat.min_eq_right (by omega)
      have ht : (schedState N K W j).time = (j - 1) / K * W := by
        simp only [schedState]
        rw [if_neg (by omega)]
      have hpend : (schedState N K W j).pending
          = ((j - K) / K * W + W, (⟨(j - K) % K, some ((j - K) / K * W)⟩ : Token)) ::
            (List.range' (j - K + 1) (K - 1)).map
              (fun i => (i / K * W + W, (⟨i % K, some (i / K * W)⟩ : Token))) := by
        show (List.range' (j - min j K) (min j K)).map _ = _
        rw [hminK]
        have hcons : List.range' (j - K) K = (j - K) :: List.range' (j - K + 1) (K - 1) := by
          conv_lhs => rw [show K = K - 1 + 1 by omega]
          rw [List.range'_succ]
          simp only [Nat.sub_add_cancel hK]
        rw [hcons, List.map_cons]
      have hconcat : List.range' (j + 1 - K) K = List.range' (j - K + 1) (K - 1) ++ [j] := by
        have h1 := @List.range'_concat 1 (j - K + 1) (K - 1)
        simp only [Nat.one_mul] at h1
        rw [Nat.sub_add_cancel hK] at h1
        rw [show j - K + 1 + (K - 1) = j by omega] at h1
        rw [show j + 1 - K = j - K + 1 by omega]
        exact h1
      have hrev : (List.range (j + 1)).reverse = j :: (List.range j).reverse := by
        rw [List.range_succ]
        simp
      by_cases hdvd : j % K = 0
      · have hdvd2 : K ∣ j := Nat.dvd_of_mod_eq_zero hdvd
        have hsdp : j / K = (j - 1) / K + 1 := by rw [hsd, if_pos hdvd2]
        have hfeq : (j - K) / K = (j - 1) / K := by omega
        have hacts : callerActs K W j = .tick W :: [.refill, .grant, .release j] := by
          unfold callerActs
          rw [if_pos hcase, if_pos hdvd]
          rfl
        rw [hacts]
        rw [run_cons_ok (show step (.tick W) (schedState N K W j)
          = .ok { schedState N K W j with time := (schedState N K W j).time + W } from rfl)]
        rw [refill_grant_release_run
          (s := { schedState N K W j with time := (schedState N K W j).time + W })
          (show ({ schedState N K W j with time := (schedState N K W j).time + W } : St).waiting
              = j :: List.range' (j + 1) (N - (j + 1)) from hwaiting)
          (by exact havail0) (by exact hpend)
          (by show (j - K) / K * W + W ≤ (schedState N K W j).time + W
              rw [ht, hfeq])
          (by show 0 < K; omega) rfl]
        congr 1
        simp only [schedState, St.mk.injEq]
        refine ⟨trivial, trivial, ?_, ?_, trivial, trivial, ?_, ?_, ?_, ?_⟩
        · rw [if_neg (show ¬ j = 0 by omega), if_neg (show ¬ j + 1 = 0 by omega),
            Nat.add_sub_cancel, hsdp, Nat.add_mul, Nat.one_mul]
        · rw [show K - (j + 1) = 0 by omega]
          rfl
        · rw [hminK2, if_neg (show ¬ j = 0 by omega), hconcat, List.map_append]
          congr 1
          simp only [List.map_cons, List.map_nil]
          rw [hsdp, Nat.add_mul, Nat.one_mul, hmodK]
        · rw [hminK, hminK2]
          omega
        · rw [hrev, List.map_cons, if_neg (show ¬ j = 0 by omega), hsdp, Nat.add_mul,
            Nat.one_mul, hmodK]
        · rw [hminK, hminK2]
          omega
      · have hdvd2 : ¬ K ∣ j := fun hd => hdvd (Nat.mod_eq_zero_of_dvd hd)
        have hsdn : j / K = (j - 1) / K := by rw [hsd, if_neg hdvd2]; omega
        have hmulq : (j - K) / K * W + W = j / K * W := by
          rw [hdivK, Nat.add_mul, Nat.one_mul]
        have hacts : callerActs K W j = [.refill, .grant, .release j] := by
          unfold callerActs
          rw [if_pos hcase, if_neg hdvd]
          rfl
        rw [hacts]
        rw [refill_grant_release_run (s := schedState N K W j)
          (show (schedState N K W j).waiting = j :: List.range' (j + 1) (N - (j + 1))
            from hwaiting)
          havail0 hpend
          (by rw [ht, ← hsdn, ← hmulq])
          (by show 0 < K; omega) rfl]
        congr 1
        simp only [schedState, St.mk.injEq]
        refine ⟨trivial, trivial, ?_, ?_, trivial, trivial, ?_, ?_, ?_, ?_⟩
        · rw [if_neg (show ¬ j = 0 by omega), if_neg (show ¬ j + 1 = 0 by omega),
            Nat.add_sub_cancel, hsdn]
        · rw [show K - (j + 1) = 0 by omega]
          rfl
        · rw [hminK2, if_neg (show ¬ j = 0 by omega), hconcat, List.map_append]
          congr 1
          simp only [List.map_cons, List.map_nil]
          rw [hsdn, hmodK]
        · rw [hminK, hminK2]
          omega
        · rw [hrev, List.map_cons, if_neg (show ¬ j = 0 by omega), hsdn, hmodK]
        · rw [hminK, hminK2]
          omega
    · push_neg at hcase
      have hacts : callerActs K W j = [.grant, .release j] := by
        unfold callerActs
        rw [if_neg (by omega)]
        rfl
      have ht : (schedState N K W j).time = 0 := by
        simp only [schedState]
        split
        · rfl
        · rw [Nat.div_eq_of_lt (by omega)]
          simp
      have havail : (schedState N K W j).avail
          = (⟨j, none⟩ : Token) ::
            (List.range' (j + 1) (K - (j + 1))).map (fun i => (⟨i, none⟩ : Token)) := by
        show (List.range' j (K - j)).map _ = _
        rw [show K - j = (K - (j + 1)) + 1 by omega, List.range'_succ, List.map_cons]
      rw [hacts, grant_release_run hwaiting havail rfl]
      congr 1
      rw [ht]
      have hmin1 : min j K = j := Nat.min_eq_left (le_of_lt hcase)
      have hmin2 : min (j + 1) K = j + 1 := Nat.min_eq_left (by omega)
      have hdiv : j / K = 0 := Nat.div_eq_of_lt hcase
      have hmod : j % K = j := Nat.mod_eq_of_lt hcase
      simp only [schedState, hmin1, hmin2, hdiv, hmod, Nat.sub_self, Nat.add_sub_cancel,
        List.range'_concat, List.map_append, List.map_cons, List.map_nil, Nat.zero_add,
        Nat.zero_mul, Nat.one_mul, Nat.succ_ne_zero, if_false, if_neg, List.range_succ,
        List.reverse_append, List.reverse_cons, List.reverse_nil, List.nil_append,
        List.cons_append, Nat.add_assoc]

/-- C8: a fresh limiter with capacity `K` grants the first `K` back-to-back
`borrow` calls all at time 0 with nobody left suspended, while in any run
whatsoever every grant beyond the first `K` happens no earlier than one
window after construction. -/
theorem fresh_limiter_burst (K W : Nat) (acts : List Act) (s s2 : St) (e e2 : GEntry) :
    (run (burst K) (init K W) = .ok s →
      s.grants.length = K ∧ s.waiting = [] ∧ s.time = 0 ∧
        (e ∈ s.grants → e.gtime = 0)) ∧
    (run acts (init K W) = .ok s2 → e2 ∈ s2.grants.take (s2.grants.length - K) →
      W ≤ e2.gtime) := by
  constructor
  · intro h
    rw [burst_run K W K le_rfl] at h
    simp only [StepRes.ok.injEq] at h
    subst h
    refine ⟨by simp [burstState], rfl, rfl, ?_⟩
    intro he
    simp only [burstState, List.mem_map] at he
    obtain ⟨i, _, hi⟩ := he
    rw [← hi]
  · intro h he2
    have hI := run_inv (inv_init K W) h
    have hcap : s2.cap = K := (run_params h).1
    have hwin : s2.win = W := (run_params h).2
    rw [← hwin]
    rw [← hcap] at he2
    exact hI.hlate e2 he2

/-- Instance of the burst property with capacity 1, window 2: the single
free grant is at time 0 and the second grant of the run happens at time 2. -/
theorem fresh_limiter_burst_instance :
    (burstState 1 2 1).grants.length = 1 ∧ (burstState 1 2 1).waiting = [] ∧
    (burstState 1 2 1).time = 0 ∧ (⟨0, 0, 0⟩ : GEntry).gtime = 0 ∧
    2 ≤ (⟨2, 1, 0⟩ : GEntry).gtime := by
  have h := fresh_limiter_burst 1 2
    [.acquire 0, .grant, .release 0, .tick 2, .refill, .acquire 1, .grant]
    (burstState 1 2 1)
    { cap := 1
      win := 2
      time := 2
      avail := []
      waiting := []
      held := [(1, ⟨0, some 2⟩)]
      pending := []
      senders := 1
      grants := [⟨2, 1, 0⟩, ⟨0, 0, 0⟩]
      refills := 1 }
    ⟨0, 0, 0⟩ ⟨2, 1, 0⟩
  have h1 := h.1 (by decide)
  exact ⟨h1.1, h1.2.1, h1.2.2.1, h1.2.2.2 (by decide), h.2 (by decide) (by decide)⟩

/-- C9 counterexample: with capacity 1, window 1 and two concurrent
callers, if caller 0 simply keeps its guard, caller 1 is still waiting at
time 3, beyond the claimed bound of one window per round, `⌈N/K⌉ * W = 2`:
replenishment only happens on release, so the bound fails for arbitrary
holding behaviour. -/
theorem waiter_can_exceed_bound :
    run [.acquire 0, .grant, .acquire 1, .tick 3] (init 1 1) = .ok c9EndState ∧
    c9EndState.waiting = [1] ∧ c9EndState.grants.length = 1 ∧
    (2 + 1 - 1) / 1 * 1 < c9EndState.time :=
  ⟨by decide, rfl, rfl, by decide⟩

/-- C9 amended: under prompt release — every guard dropped as soon as it is
granted — the schedule for `N` concurrent callers with capacity `K ≥ 1` and
window `W` succeeds and grants caller `j < N` at time `(j / K) * W`, which
is at most `⌈N / K⌉ * W`. -/
theorem prompt_release_liveness (N K W j : Nat) (hK : 1 ≤ K) (hj : j < N) :
    run (schedule N K W) (init K W) = .ok (schedState N K W N) ∧
    (⟨j / K * W, j, j % K⟩ : GEntry) ∈ (schedState N K W N).grants ∧
    j / K * W ≤ (N + K - 1) / K * W := by
  refine ⟨?_, ?_, ?_⟩
  · show run (acquireAll N ++ procCallers K W N) (init K W) = _
    exact sched_run N K W hK N le_rfl
  · show _ ∈ (List.range N).reverse.map
      (fun i => (⟨i / K * W, i, i % K⟩ : GEntry))
    exact List.mem_map_of_mem _ (List.mem_reverse.mpr (List.mem_range.mpr hj))
  · exact Nat.mul_le_mul_right W (Nat.div_le_div_right (by omega))

/-- Instance of prompt-release liveness: three callers, capacity 2,
window 5 — caller 2 is granted at time 5, within the bound 10. -/
theorem prompt_release_liveness_instance :
    run (schedule 3 2 5) (init 2 5) = .ok (schedState 3 2 5 3) ∧
    (⟨2 / 2 * 5, 2, 2 % 2⟩ : GEntry) ∈ (schedState 3 2 5 3).grants ∧
    2 / 2 * 5 ≤ (3 + 2 - 1) / 2 * 5 :=
  prompt_release_liveness 3 2 5 2 (by decide) (by decide)

end CFRate

namespace CFApi

/-- Helper: a trace of query parameters followed by send and parse, with no
prior acquisition, leaves every send unguarded. -/
theorem sendsGuardedFrom_params (ps : List (String × String)) :
    sendsGuardedFrom false
      (ps.map (fun p => Effect.queryParam p.1 p.2) ++ [Effect.send, Effect.parseJson])
      = false := by
  induction ps with
  | nil => rfl
  | cons p rest ih => exact ih

/-- Helper: a trace of query parameters contains no acquisition. -/
theorem acquireTotal_params (ps : List (String × String)) :
    acquireTotal
      (ps.map (fun p => Effect.queryParam p.1 p.2) ++ [Effect.send, Effect.parseJson])
      = 0 := by
  induction ps with
  | nil => rfl
  | cons p rest ih => exact ih

/-- C2 (code-bug evidence): none of the six API methods of `src/lib.rs`
consumes rate-limiter capacity — their effect traces contain no guard
acquisition at all, so every HTTP send is issued unguarded. -/
theorem requests_bypass_limiter (handles : List String) (handle : String)
    (fr cnt cid : Nat) (activeOnly withGym : Bool)
    (builderPairs : List (String × String)) :
    sendsGuarded (userInfoEffects handles) = false ∧
    acquireTotal (userInfoEffects handles) = 0 ∧
    sendsGuarded (userRatedListEffects activeOnly) = false ∧
    acquireTotal (userRatedListEffects activeOnly) = 0 ∧
    sendsGuarded (userRatingEffects handle) = false ∧
    acquireTotal (userRatingEffects handle) = 0 ∧
    sendsGuarded (userStatusEffects handle fr cnt) = false ∧
    acquireTotal (userStatusEffects handle fr cnt) = 0 ∧
    sendsGuarded (contestListEffects withGym) = false ∧
    acquireTotal (contestListEffects withGym) = 0 ∧
    sendsGuarded (contestStandingsEffects cid builderPairs) = false ∧
    acquireTotal (contestStandingsEffects cid builderPairs) = 0 := by
  refine ⟨rfl, rfl, rfl, rfl, rfl, rfl, rfl, rfl, rfl, rfl, ?_, ?_⟩
  · exact sendsGuardedFrom_params builderPairs
  · exact acquireTotal_params builderPairs

/-- C10: the request built by `User::status(client, handle, from, count)`
always carries the query parameter `from = max(from, 1)` and
`count = min(count, 1)`; in particular at most one submission is ever
requested, whatever `count` was passed. -/
theorem user_status_query_params (handle : String) (fr cnt : Nat) :
    ((userStatusRequest handle fr cnt).params.lookup "from"
      = some (toString (max fr 1))) ∧
    ((userStatusRequest handle fr cnt).params.lookup "count"
      = some (toString (min cnt 1))) ∧
    min cnt 1 ≤ 1 ∧
    (userStatusRequest handle fr cnt).url = "https://codeforces.com/api/user.status" :=
  ⟨rfl, rfl, Nat.min_le_right _ _, rfl⟩

end CFApi
